import Mathlib

/-!
Shallow embedding of the JSON tokenizer and tree builder of
`src/libs.rs` (the clean `lexer` / `parser` modules).

Conventions of the embedding:
* Rust `String` values travel as `List Char`; Rust `Peekable<Chars>` /
  `Peekable<Iter<Token>>` become explicit `List Char` / `List Token`
  arguments, with the unconsumed remainder returned alongside results.
* Rust `Result<T, String>` becomes `Except String T`.  Error strings keep
  the meaning of the originals; quotes and braces inside the Rust message
  literals are dropped or spelled out so each distinct Rust error stays a
  distinct string here.
* Recursion is made total with an explicit fuel argument; exhausted fuel
  yields the dedicated error string "Model fuel exhausted", which no code
  path of the source can produce.  The wrappers `tokenize` and `build`
  supply fuel that is provably sufficient (each lexer step consumes at
  least one character; each parser step is fed fuel linear in the token
  count, and the monotonicity lemmas below transport results between fuel
  amounts).
-/

/-- Token kinds, from `enum TokenType` in `src/libs.rs`. -/
inductive TokenType where
  | OpenObject
  | CloseObject
  | OpenArray
  | CloseArray
  | String
  | Number
  | True
  | False
  | Null
  | Colon
  | Comma
deriving DecidableEq, Repr

/-- Debug rendering of a token kind, modelling the derived `Debug`
rendering `format!("{:?}", expected)` used in `consume_token`. -/
def tokenTypeName : TokenType → String
  | .OpenObject => "OpenObject"
  | .CloseObject => "CloseObject"
  | .OpenArray => "OpenArray"
  | .CloseArray => "CloseArray"
  | .String => "String"
  | .Number => "Number"
  | .True => "True"
  | .False => "False"
  | .Null => "Null"
  | .Colon => "Colon"
  | .Comma => "Comma"

/-- A lexical token, from `struct Token` in `src/libs.rs`: a kind plus the
lexeme text (as a character list). -/
structure Token where
  token_type : TokenType
  value : List Char
deriving DecidableEq, Repr

/-- The double-quote character (written via its code point to keep string
and character literals in this file free of quote characters). -/
def quoteChar : Char := Char.ofNat 34

/-- The parsed JSON tree, from `enum ASTNode` in `src/libs.rs`.  The Rust
`Number` variant stores an `f64`; every number lexeme this tokenizer can
produce is a nonempty run of ASCII digits, on which Rust float parsing
yields exactly the denoted integer, so the model stores that integer as a
`Nat` (see `parse_f64`). -/
inductive ASTNode where
  | Object : List (List Char × ASTNode) → ASTNode
  | Array : List ASTNode → ASTNode
  | String : List Char → ASTNode
  | Number : Nat → ASTNode
  | True : ASTNode
  | False : ASTNode
  | Null : ASTNode

/-- Numeric value of a digit string, most significant digit first. -/
def digitsToNat (cs : List Char) : Nat :=
  cs.foldl (fun n c => 10 * n + (c.toNat - 48)) 0

/-- Modelled from `token.value.parse::<f64>()` in `Parser::parse_basic`.
The only number lexemes the tokenizer of this repository can emit are
nonempty runs of ASCII digits, and on those Rust float parsing succeeds
with the denoted integer value; the model returns that value and treats
other strings as failing (`InvalidNumber`), which is exact on every
tokenizer-producible lexeme. -/
def parse_f64 (cs : List Char) : Option Nat :=
  if (!cs.isEmpty) && cs.all Char.isDigit then some (digitsToNat cs) else none

namespace Lexer

/-- Models `Lexer::consume_char`.  The Rust mismatch message interpolates
the two characters between single quotes; the model keeps the same prefix
text with the bare characters. -/
def consume_char (expected : Char) : List Char → Except String (List Char)
  | [] => .error "Unexpected end of input"
  | c :: rest =>
      if c = expected then .ok rest
      else .error ("Expected " ++ String.mk [expected] ++ ", but found " ++ String.mk [c])

/-- Token kind of a structural character, from the `match ch` inside
`Lexer::parse_simple_token` (the comma arm doubles as the `unreachable!()`
default, which `Lexer.parse` never hits). -/
def simple_token_type (c : Char) : TokenType :=
  if c = '{' then TokenType.OpenObject
  else if c = '}' then TokenType.CloseObject
  else if c = '[' then TokenType.OpenArray
  else if c = ']' then TokenType.CloseArray
  else if c = ':' then TokenType.Colon
  else TokenType.Comma

/-- Models `Lexer::parse_simple_token`: consume one structural character
and emit the matching token. -/
def parse_simple_token (c : Char) (rest : List Char) : Token × List Char :=
  (⟨simple_token_type c, [c]⟩, rest)

/-- Models `Lexer::parse_string`: consume the opening quote, take every
character up to (not including) the next quote as the token text, then
consume the closing quote (end of input there is an error). -/
def parse_string (cs : List Char) : Except String (Token × List Char) :=
  match consume_char quoteChar cs with
  | .error e => .error e
  | .ok rest =>
      match consume_char quoteChar (rest.dropWhile (fun c => c != quoteChar)) with
      | .error e => .error e
      | .ok rest2 => .ok (⟨TokenType.String, rest.takeWhile (fun c => c != quoteChar)⟩, rest2)

/-- Models `Lexer::parse_number`: the token text is the maximal run of
ASCII digits from the current position. -/
def parse_number (cs : List Char) : Token × List Char :=
  (⟨TokenType.Number, cs.takeWhile Char.isDigit⟩, cs.dropWhile Char.isDigit)

/-- Models Rust `char::is_alphabetic` as used by `Lexer::parse_keyword`.
The Rust predicate accepts every Unicode alphabetic character; the model
uses the ASCII-letter predicate, which coincides with it on every ASCII
character (within ASCII, Unicode Alphabetic is exactly the letters) but
returns false on non-ASCII alphabetic characters such as accented
letters.  Statements that fix the extent of a keyword run over arbitrary
input therefore carry an all-ASCII hypothesis (see the unknown-keyword
theorem below).  On inputs containing non-ASCII characters the model and
the program still succeed on exactly the same inputs with identical
token lists - a non-ASCII character at a token-head position is rejected
by both (here by the catch-all arm, in Rust by the catch-all arm or as
part of a keyword run that can no longer equal true/false/null) - but
the word carried by an unknown-keyword error may be shorter here than
the program's maximal Unicode-alphabetic run. -/
def is_alphabetic (c : Char) : Bool := c.isAlpha

/-- Models `Lexer::parse_keyword`: take the maximal run of alphabetic
characters; the word must be exactly true, false or null, anything else
is an unknown-keyword error. -/
def parse_keyword (cs : List Char) : Except String (Token × List Char) :=
  if cs.takeWhile is_alphabetic = [ 't', 'r', 'u', 'e' ] then
    .ok (⟨TokenType.True, cs.takeWhile is_alphabetic⟩, cs.dropWhile is_alphabetic)
  else if cs.takeWhile is_alphabetic = [ 'f', 'a', 'l', 's', 'e' ] then
    .ok (⟨TokenType.False, cs.takeWhile is_alphabetic⟩, cs.dropWhile is_alphabetic)
  else if cs.takeWhile is_alphabetic = [ 'n', 'u', 'l', 'l' ] then
    .ok (⟨TokenType.Null, cs.takeWhile is_alphabetic⟩, cs.dropWhile is_alphabetic)
  else .error ("Unknown keyword: " ++ String.mk (cs.takeWhile is_alphabetic))

/-- Models the dispatch loop `Lexer::parse`: skip whitespace, dispatch on
the peeked character to the sub-scanner, error on any other character.
Fuel makes the recursion structural; every step consumes at least one
character, so `length + 1` fuel (supplied by `tokenize`) never runs out. -/
def parse : Nat → List Char → Except String (List Token)
  | 0, _ => .error "Model fuel exhausted"
  | _ + 1, [] => .ok []
  | fuel + 1, c :: rest =>
      if c = ' ' ∨ c = '\n' ∨ c = '\t' ∨ c = '\r' then
        parse fuel rest
      else if c = '{' ∨ c = '}' ∨ c = '[' ∨ c = ']' ∨ c = ':' ∨ c = ',' then
        match parse fuel (parse_simple_token c rest).2 with
        | .ok ts => .ok ((parse_simple_token c rest).1 :: ts)
        | .error e => .error e
      else if c = quoteChar then
        match parse_string (c :: rest) with
        | .error e => .error e
        | .ok (t, rest2) =>
            match parse fuel rest2 with
            | .ok ts => .ok (t :: ts)
            | .error e => .error e
      else if c.isDigit then
        match parse fuel (parse_number (c :: rest)).2 with
        | .ok ts => .ok ((parse_number (c :: rest)).1 :: ts)
        | .error e => .error e
      else if c.isAlpha then
        match parse_keyword (c :: rest) with
        | .error e => .error e
        | .ok (t, rest2) =>
            match parse fuel rest2 with
            | .ok ts => .ok (t :: ts)
            | .error e => .error e
      else .error ("Unexpected character: " ++ String.mk [c])

end Lexer

/-- The tokenizer entry point (spec name `tokenize`; in the source,
`Lexer::new` followed by `generate`, which stores the result of
`Lexer::parse`). -/
def tokenize (cs : List Char) : Except String (List Token) :=
  Lexer.parse (cs.length + 1) cs

namespace Parser

/-- Models `Parser::consume_token`. -/
def consume_token (expected : TokenType) : List Token → Except String (List Token)
  | [] => .error "Unexpected end of input"
  | t :: rest =>
      if t.token_type = expected then .ok rest
      else .error ("Expected " ++ tokenTypeName expected ++ ", found unexpected token")

/-- Models `Parser::consume_string`. -/
def consume_string : List Token → Except String (List Char × List Token)
  | [] => .error "Unexpected end of input"
  | t :: rest =>
      if t.token_type = TokenType.String then .ok (t.value, rest)
      else .error "Expected string"

/-- Models `Parser::parse_basic`: consume one leaf token and build the
corresponding tree leaf; a number lexeme that fails float parsing is the
invalid-number error. -/
def parse_basic : List Token → Except String (ASTNode × List Token)
  | [] => .error "Unexpected end of input"
  | t :: rest =>
      match t.token_type with
      | .True => .ok (ASTNode.True, rest)
      | .False => .ok (ASTNode.False, rest)
      | .Null => .ok (ASTNode.Null, rest)
      | .Number =>
          match parse_f64 t.value with
          | some n => .ok (ASTNode.Number n, rest)
          | none => .error "Invalid number"
      | .String => .ok (ASTNode.String t.value, rest)
      | _ => .error "Invalid token"

mutual

/-- Models `Parser::parse`: peek the next token and dispatch.  Structural
tokens in value position are the invalid-JSON-token error. -/
def parse : Nat → List Token → Except String (ASTNode × List Token)
  | 0, _ => .error "Model fuel exhausted"
  | fuel + 1, ts =>
      match ts with
      | [] => .error "Unexpected end of input"
      | t :: _ =>
          match t.token_type with
          | .OpenObject =>
              match parse_object fuel ts with
              | .ok (props, rest) => .ok (ASTNode.Object props, rest)
              | .error e => .error e
          | .OpenArray =>
              match parse_array fuel ts with
              | .ok (elems, rest) => .ok (ASTNode.Array elems, rest)
              | .error e => .error e
          | .CloseObject => .error "Invalid JSON token"
          | .CloseArray => .error "Invalid JSON token"
          | .Colon => .error "Invalid JSON token"
          | .Comma => .error "Invalid JSON token"
          | _ => parse_basic ts

/-- Models `Parser::parse_object`: consume the opening brace, then run the
member loop (the source wraps the loop in a redundant guard with the same
condition as the loop itself, which is semantically the loop alone). -/
def parse_object : Nat → List Token → Except String (List (List Char × ASTNode) × List Token)
  | 0, _ => .error "Model fuel exhausted"
  | fuel + 1, ts =>
      match consume_token TokenType.OpenObject ts with
      | .ok rest => parse_members fuel rest
      | .error e => .error e

/-- Models the member loop inside `Parser::parse_object`: while the peeked
token is not the closing brace, read key, colon and value; after a member
a comma continues the loop (with no check of what follows the comma) and a
closing brace ends it; the closing brace is consumed on exit.  The Rust
message for a bad separator interpolates a quoted comma and closing brace;
the model names the token kinds instead. -/
def parse_members : Nat → List Token → Except String (List (List Char × ASTNode) × List Token)
  | 0, _ => .error "Model fuel exhausted"
  | fuel + 1, ts =>
      match ts with
      | [] => .error "Unexpected end of input"
      | t :: rest =>
          if t.token_type = TokenType.CloseObject then .ok ([], rest)
          else
            match consume_string (t :: rest) with
            | .error e => .error e
            | .ok (key, ts1) =>
                match consume_token TokenType.Colon ts1 with
                | .error e => .error e
                | .ok ts2 =>
                    match parse fuel ts2 with
                    | .error e => .error e
                    | .ok (v, ts3) =>
                        match ts3 with
                        | [] => .error "Expected Comma or CloseObject in object"
                        | t2 :: rest2 =>
                            if t2.token_type = TokenType.Comma then
                              match parse_members fuel rest2 with
                              | .ok (props, rest3) => .ok ((key, v) :: props, rest3)
                              | .error e => .error e
                            else if t2.token_type = TokenType.CloseObject then
                              .ok ([(key, v)], rest2)
                            else .error "Expected Comma or CloseObject in object"

/-- Models `Parser::parse_array`: consume the opening bracket; an
immediately peeked closing bracket gives the empty array (consuming it);
otherwise run the element loop. -/
def parse_array : Nat → List Token → Except String (List ASTNode × List Token)
  | 0, _ => .error "Model fuel exhausted"
  | fuel + 1, ts =>
      match consume_token TokenType.OpenArray ts with
      | .error e => .error e
      | .ok rest =>
          match rest with
          | [] => parse_elems fuel []
          | t :: rest2 =>
              if t.token_type = TokenType.CloseArray then .ok ([], rest2)
              else parse_elems fuel (t :: rest2)

/-- Models the element loop inside `Parser::parse_array`: parse one value
per iteration; after a value a comma continues the loop (so a closing
bracket right after a comma is met in value position by `parse`) and a
closing bracket ends it, consumed on exit; anything else is the
invalid-separator error. -/
def parse_elems : Nat → List Token → Except String (List ASTNode × List Token)
  | 0, _ => .error "Model fuel exhausted"
  | fuel + 1, ts =>
      match parse fuel ts with
      | .error e => .error e
      | .ok (v, ts1) =>
          match ts1 with
          | [] => .error "Unexpected end of input"
          | t :: rest =>
              if t.token_type = TokenType.Comma then
                match parse_elems fuel rest with
                | .ok (elems, rest2) => .ok (v :: elems, rest2)
                | .error e => .error e
              else if t.token_type = TokenType.CloseArray then .ok ([v], rest)
              else .error "Invalid separator"

end

end Parser

/-- The tree-builder entry point (spec name `build`; in the source,
`Parser::new` followed by `generate`, which stores the result of one
`Parser::parse` call and ignores any unconsumed tokens).  The fuel
`3 * length + 3` dominates the call depth of every successful parse. -/
def build (ts : List Token) : Except String ASTNode :=
  match Parser.parse (3 * ts.length + 3) ts with
  | .ok (v, _) => .ok v
  | .error e => .error e

/-! Basic facts about the lexer sub-scanners. -/

theorem dropWhile_length_le {α : Type} (p : α → Bool) :
    ∀ l : List α, (l.dropWhile p).length ≤ l.length := by
  intro l
  induction l with
  | nil => simp
  | cons a l ih =>
      rw [List.dropWhile_cons]
      by_cases h : p a = true
      · simp only [if_pos h]
        exact Nat.le_succ_of_le ih
      · simp only [if_neg h]
        exact Nat.le_refl _

theorem consume_char_length {expected : Char} {cs rest : List Char}
    (h : Lexer.consume_char expected cs = .ok rest) : rest.length < cs.length := by
  match cs with
  | [] => simp [Lexer.consume_char] at h
  | c :: cs' =>
      rw [Lexer.consume_char] at h
      by_cases hc : c = expected
      · simp only [if_pos hc] at h
        cases h
        simp
      · simp [if_neg hc] at h

theorem parse_string_length {cs : List Char} {t : Token} {rest : List Char}
    (h : Lexer.parse_string cs = .ok (t, rest)) : rest.length < cs.length := by
  rw [Lexer.parse_string] at h
  cases h1 : Lexer.consume_char quoteChar cs with
  | error e => simp only [h1] at h; cases h
  | ok r1 =>
      simp only [h1] at h
      cases h2 : Lexer.consume_char quoteChar (r1.dropWhile (fun c => c != quoteChar)) with
      | error e => simp only [h2] at h; cases h
      | ok r2 =>
          simp only [h2, Except.ok.injEq, Prod.mk.injEq] at h
          obtain ⟨-, hrest⟩ := h
          subst hrest
          calc r2.length < (r1.dropWhile (fun c => c != quoteChar)).length :=
                consume_char_length h2
            _ ≤ r1.length := dropWhile_length_le _ _
            _ < cs.length := consume_char_length h1

theorem parse_keyword_rest {cs : List Char} {t : Token} {rest : List Char}
    (h : Lexer.parse_keyword cs = .ok (t, rest)) :
    rest = cs.dropWhile Lexer.is_alphabetic := by
  rw [Lexer.parse_keyword] at h
  split at h
  · cases h; rfl
  · split at h
    · cases h; rfl
    · split at h
      · cases h; rfl
      · cases h

/-- Any two fuel amounts strictly above the input length give the lexer
loop the same result: each step consumes at least one character. -/
theorem lexer_parse_irrel :
    ∀ fuel fuel' : Nat, ∀ cs : List Char, cs.length < fuel → cs.length < fuel' →
      Lexer.parse fuel cs = Lexer.parse fuel' cs := by
  intro fuel
  induction fuel with
  | zero => intro fuel' cs h _; omega
  | succ f ih =>
      intro fuel' cs h h'
      match fuel', cs with
      | 0, cs => omega
      | f' + 1, [] => rfl
      | f' + 1, c :: rest =>
          have hr : rest.length < f := by
            simp only [List.length_cons] at h; omega
          have hr' : rest.length < f' := by
            simp only [List.length_cons] at h'; omega
          rw [Lexer.parse, Lexer.parse]
          by_cases hws : c = ' ' ∨ c = '\n' ∨ c = '\t' ∨ c = '\r'
          · simp only [if_pos hws]
            exact ih f' rest hr hr'
          · simp only [if_neg hws]
            by_cases hsimp : c = '{' ∨ c = '}' ∨ c = '[' ∨ c = ']' ∨ c = ':' ∨ c = ','
            · simp only [if_pos hsimp]
              rw [ih f' (Lexer.parse_simple_token c rest).2 hr hr']
            · simp only [if_neg hsimp]
              by_cases hq : c = quoteChar
              · simp only [if_pos hq]
                cases hps : Lexer.parse_string (c :: rest) with
                | error e => rfl
                | ok p =>
                    obtain ⟨t, rest2⟩ := p
                    have hlen : rest2.length < (c :: rest).length := parse_string_length hps
                    simp only [List.length_cons] at hlen
                    dsimp only
                    rw [ih f' rest2 (by omega) (by omega)]
              · simp only [if_neg hq]
                by_cases hd : c.isDigit
                · simp only [if_pos hd]
                  have : (Lexer.parse_number (c :: rest)).2.length < f ∧
                      (Lexer.parse_number (c :: rest)).2.length < f' := by
                    rw [Lexer.parse_number]
                    simp only [List.dropWhile_cons_of_pos hd]
                    have := dropWhile_length_le Char.isDigit rest
                    omega
                  rw [ih f' (Lexer.parse_number (c :: rest)).2 this.1 this.2]
                · simp only [if_neg hd]
                  by_cases ha : c.isAlpha
                  · simp only [if_pos ha]
                    cases hpk : Lexer.parse_keyword (c :: rest) with
                    | error e => rfl
                    | ok p =>
                        obtain ⟨t, rest2⟩ := p
                        have hrest2 : rest2 = (c :: rest).dropWhile Lexer.is_alphabetic :=
                          parse_keyword_rest hpk
                        have hca : Lexer.is_alphabetic c = true := ha
                        have hlen : rest2.length ≤ rest.length := by
                          rw [hrest2, List.dropWhile_cons_of_pos hca]
                          exact dropWhile_length_le _ rest
                        dsimp only
                        rw [ih f' rest2 (by omega) (by omega)]
                  · simp only [if_neg ha]

/-- The invariant every token emitted by the lexer satisfies: a `Number`
token text is a nonempty run of ASCII digits, and a `String` token text
never contains a double quote. -/
def goodToken (t : Token) : Prop :=
  (t.token_type = TokenType.Number → t.value ≠ [] ∧ t.value.all Char.isDigit = true) ∧
  (t.token_type = TokenType.String → quoteChar ∉ t.value)

theorem parse_simple_token_type (c : Char) (rest : List Char) :
    (Lexer.parse_simple_token c rest).1.token_type ≠ TokenType.Number ∧
      (Lexer.parse_simple_token c rest).1.token_type ≠ TokenType.String := by
  rw [Lexer.parse_simple_token]
  dsimp only
  rw [Lexer.simple_token_type]
  refine ⟨?_, ?_⟩ <;> (intro hcontra; split_ifs at hcontra)

theorem parse_string_token {cs : List Char} {t : Token} {rest : List Char}
    (h : Lexer.parse_string cs = .ok (t, rest)) :
    t.token_type = TokenType.String ∧ quoteChar ∉ t.value := by
  rw [Lexer.parse_string] at h
  cases h1 : Lexer.consume_char quoteChar cs with
  | error e => simp only [h1] at h; cases h
  | ok r1 =>
      simp only [h1] at h
      cases h2 : Lexer.consume_char quoteChar (r1.dropWhile (fun c => c != quoteChar)) with
      | error e => simp only [h2] at h; cases h
      | ok r2 =>
          simp only [h2, Except.ok.injEq, Prod.mk.injEq] at h
          obtain ⟨ht, -⟩ := h
          subst ht
          refine ⟨rfl, fun hmem => ?_⟩
          have := List.mem_takeWhile_imp hmem
          simp at this

theorem parse_keyword_type {cs : List Char} {t : Token} {rest : List Char}
    (h : Lexer.parse_keyword cs = .ok (t, rest)) :
    t.token_type = TokenType.True ∨ t.token_type = TokenType.False ∨
      t.token_type = TokenType.Null := by
  rw [Lexer.parse_keyword] at h
  split at h
  · cases h; left; rfl
  · split at h
    · cases h; right; left; rfl
    · split at h
      · cases h; right; right; rfl
      · cases h

/-- Every token in a successful lexer-loop result satisfies `goodToken`. -/
theorem lexer_parse_good :
    ∀ fuel : Nat, ∀ cs : List Char, ∀ toks : List Token,
      Lexer.parse fuel cs = .ok toks → ∀ t ∈ toks, goodToken t := by
  intro fuel
  induction fuel with
  | zero => intro cs toks h; rw [Lexer.parse] at h; cases h
  | succ f ih =>
      intro cs toks h
      match cs with
      | [] =>
          rw [Lexer.parse] at h
          cases h
          intro t ht
          cases ht
      | c :: rest =>
          rw [Lexer.parse] at h
          by_cases hws : c = ' ' ∨ c = '\n' ∨ c = '\t' ∨ c = '\r'
          · rw [if_pos hws] at h
            exact ih rest toks h
          · rw [if_neg hws] at h
            by_cases hsimp : c = '{' ∨ c = '}' ∨ c = '[' ∨ c = ']' ∨ c = ':' ∨ c = ','
            · rw [if_pos hsimp] at h
              cases hrec : Lexer.parse f (Lexer.parse_simple_token c rest).2 with
              | error e => rw [hrec] at h; cases h
              | ok ts =>
                  rw [hrec] at h
                  cases h
                  intro t ht
                  rcases List.mem_cons.mp ht with h0 | h0
                  · subst h0
                    have := parse_simple_token_type c rest
                    exact ⟨fun hn => absurd hn this.1, fun hs => absurd hs this.2⟩
                  · exact ih _ ts hrec t h0
            · rw [if_neg hsimp] at h
              by_cases hq : c = quoteChar
              · rw [if_pos hq] at h
                cases hps : Lexer.parse_string (c :: rest) with
                | error e => rw [hps] at h; cases h
                | ok p =>
                    obtain ⟨t0, rest2⟩ := p
                    rw [hps] at h
                    dsimp only at h
                    cases hrec : Lexer.parse f rest2 with
                    | error e => rw [hrec] at h; cases h
                    | ok ts =>
                        rw [hrec] at h
                        cases h
                        intro t ht
                        rcases List.mem_cons.mp ht with h0 | h0
                        · subst h0
                          have := parse_string_token hps
                          exact ⟨fun hn => absurd (this.1.symm.trans hn) (by decide),
                            fun _ => this.2⟩
                        · exact ih _ ts hrec t h0
              · rw [if_neg hq] at h
                by_cases hd : c.isDigit
                · rw [if_pos hd] at h
                  cases hrec : Lexer.parse f (Lexer.parse_number (c :: rest)).2 with
                  | error e => rw [hrec] at h; cases h
                  | ok ts =>
                      rw [hrec] at h
                      cases h
                      intro t ht
                      rcases List.mem_cons.mp ht with h0 | h0
                      · subst h0
                        refine ⟨fun _ => ?_, fun hs => ?_⟩
                        · rw [Lexer.parse_number]
                          dsimp only
                          rw [List.takeWhile_cons_of_pos hd]
                          refine ⟨by simp, ?_⟩
                          rw [List.all_eq_true]
                          intro x hx
                          rcases List.mem_cons.mp hx with h1 | h1
                          · subst h1; exact hd
                          · exact List.mem_takeWhile_imp h1
                        · rw [Lexer.parse_number] at hs
                          cases hs
                      · exact ih _ ts hrec t h0
                · rw [if_neg hd] at h
                  by_cases ha : c.isAlpha
                  · rw [if_pos ha] at h
                    cases hpk : Lexer.parse_keyword (c :: rest) with
                    | error e => rw [hpk] at h; cases h
                    | ok p =>
                        obtain ⟨t0, rest2⟩ := p
                        rw [hpk] at h
                        dsimp only at h
                        cases hrec : Lexer.parse f rest2 with
                        | error e => rw [hrec] at h; cases h
                        | ok ts =>
                            rw [hrec] at h
                            cases h
                            intro t ht
                            rcases List.mem_cons.mp ht with h0 | h0
                            · subst h0
                              rcases parse_keyword_type hpk with h1 | h1 | h1 <;>
                                exact ⟨fun hn => absurd (h1.symm.trans hn) (by decide),
                                  fun hs => absurd (h1.symm.trans hs) (by decide)⟩
                            · exact ih _ ts hrec t h0
                  · rw [if_neg ha] at h
                    cases h

/-- On whitespace-only input the lexer loop returns the empty token list. -/
theorem lexer_parse_ws :
    ∀ fuel : Nat, ∀ cs : List Char, cs.length < fuel →
      (∀ c ∈ cs, c = ' ' ∨ c = '\n' ∨ c = '\t' ∨ c = '\r') →
      Lexer.parse fuel cs = .ok [] := by
  intro fuel
  induction fuel with
  | zero => intro cs h _; omega
  | succ f ih =>
      intro cs h hws
      match cs with
      | [] => rfl
      | c :: rest =>
          rw [Lexer.parse]
          rw [if_pos (hws c (List.mem_cons_self c rest))]
          exact ih rest (by simp only [List.length_cons] at h; omega)
            (fun x hx => hws x (List.mem_cons_of_mem c hx))

/-! Fuel monotonicity of the parser: a successful parse stays successful,
with the same result, under any larger fuel amount. -/

theorem parser_mono :
    ∀ fuel k : Nat,
      (∀ ts r, Parser.parse fuel ts = .ok r → Parser.parse (fuel + k) ts = .ok r) ∧
      (∀ ts r, Parser.parse_object fuel ts = .ok r →
        Parser.parse_object (fuel + k) ts = .ok r) ∧
      (∀ ts r, Parser.parse_members fuel ts = .ok r →
        Parser.parse_members (fuel + k) ts = .ok r) ∧
      (∀ ts r, Parser.parse_array fuel ts = .ok r →
        Parser.parse_array (fuel + k) ts = .ok r) ∧
      (∀ ts r, Parser.parse_elems fuel ts = .ok r →
        Parser.parse_elems (fuel + k) ts = .ok r) := by
  intro fuel
  induction fuel with
  | zero =>
      intro k
      refine ⟨?_, ?_, ?_, ?_, ?_⟩ <;> (intro ts r h) <;>
        first
          | (rw [Parser.parse] at h; cases h)
          | (rw [Parser.parse_object] at h; cases h)
          | (rw [Parser.parse_members] at h; cases h)
          | (rw [Parser.parse_array] at h; cases h)
          | (rw [Parser.parse_elems] at h; cases h)
  | succ f ih =>
      intro k
      have ihp := (ih k).1
      have iho := (ih k).2.1
      have ihm := (ih k).2.2.1
      have iha := (ih k).2.2.2.1
      have ihe := (ih k).2.2.2.2
      have hsucc : f + 1 + k = (f + k) + 1 := by omega
      refine ⟨?_, ?_, ?_, ?_, ?_⟩
      · -- parse
        intro ts r h
        rw [hsucc]
        match ts with
        | [] => rw [Parser.parse] at h; cases h
        | t :: rest =>
            rw [Parser.parse] at h
            rw [Parser.parse]
            cases htt : t.token_type with
            | OpenObject =>
                rw [htt] at h
                dsimp only at h ⊢
                cases hO : Parser.parse_object f (t :: rest) with
                | error e => rw [hO] at h; dsimp only at h; cases h
                | ok p =>
                    rw [hO] at h
                    dsimp only at h
                    rw [iho _ _ hO]
                    dsimp only
                    exact h
            | OpenArray =>
                rw [htt] at h
                dsimp only at h ⊢
                cases hA : Parser.parse_array f (t :: rest) with
                | error e => rw [hA] at h; dsimp only at h; cases h
                | ok p =>
                    rw [hA] at h
                    dsimp only at h
                    rw [iha _ _ hA]
                    dsimp only
                    exact h
            | CloseObject => rw [htt] at h; dsimp only at h ⊢; cases h
            | CloseArray => rw [htt] at h; dsimp only at h ⊢; cases h
            | Colon => rw [htt] at h; dsimp only at h ⊢; cases h
            | Comma => rw [htt] at h; dsimp only at h ⊢; cases h
            | True => rw [htt] at h; dsimp only at h ⊢; exact h
            | False => rw [htt] at h; dsimp only at h ⊢; exact h
            | Null => rw [htt] at h; dsimp only at h ⊢; exact h
            | Number => rw [htt] at h; dsimp only at h ⊢; exact h
            | String => rw [htt] at h; dsimp only at h ⊢; exact h
      · -- parse_object
        intro ts r h
        rw [hsucc]
        rw [Parser.parse_object] at h
        rw [Parser.parse_object]
        cases hc : Parser.consume_token TokenType.OpenObject ts with
        | error e => rw [hc] at h; dsimp only at h; cases h
        | ok rest =>
            rw [hc] at h
            dsimp only at h
            dsimp only
            exact ihm _ _ h
      · -- parse_members
        intro ts r h
        rw [hsucc]
        match ts with
        | [] => rw [Parser.parse_members] at h; cases h
        | t :: rest =>
            rw [Parser.parse_members] at h
            rw [Parser.parse_members]
            by_cases hclose : t.token_type = TokenType.CloseObject
            · rw [if_pos hclose] at h
              rw [if_pos hclose]
              exact h
            · rw [if_neg hclose] at h
              rw [if_neg hclose]
              cases hcs : Parser.consume_string (t :: rest) with
              | error e => rw [hcs] at h; dsimp only at h; cases h
              | ok p =>
                  obtain ⟨key, ts1⟩ := p
                  rw [hcs] at h
                  dsimp only at h
                  dsimp only
                  cases hct : Parser.consume_token TokenType.Colon ts1 with
                  | error e => rw [hct] at h; dsimp only at h; cases h
                  | ok ts2 =>
                      rw [hct] at h
                      dsimp only at h
                      dsimp only
                      cases hp : Parser.parse f ts2 with
                      | error e => rw [hp] at h; dsimp only at h; cases h
                      | ok q =>
                          obtain ⟨v, ts3⟩ := q
                          rw [hp] at h
                          dsimp only at h
                          rw [ihp _ _ hp]
                          dsimp only
                          match ts3 with
                          | [] => dsimp only at h; cases h
                          | t2 :: rest2 =>
                              dsimp only at h ⊢
                              by_cases hcomma : t2.token_type = TokenType.Comma
                              · rw [if_pos hcomma] at h
                                rw [if_pos hcomma]
                                cases hm : Parser.parse_members f rest2 with
                                | error e => rw [hm] at h; dsimp only at h; cases h
                                | ok q2 =>
                                    obtain ⟨props, rest3⟩ := q2
                                    rw [hm] at h
                                    dsimp only at h
                                    rw [ihm _ _ hm]
                                    dsimp only
                                    exact h
                              · rw [if_neg hcomma] at h
                                rw [if_neg hcomma]
                                exact h
      · -- parse_array
        intro ts r h
        rw [hsucc]
        rw [Parser.parse_array] at h
        rw [Parser.parse_array]
        cases hc : Parser.consume_token TokenType.OpenArray ts with
        | error e => rw [hc] at h; dsimp only at h; cases h
        | ok rest =>
            rw [hc] at h
            dsimp only at h
            dsimp only
            match rest with
            | [] => exact ihe _ _ h
            | t :: rest2 =>
                dsimp only at h ⊢
                by_cases hclose : t.token_type = TokenType.CloseArray
                · rw [if_pos hclose] at h
                  rw [if_pos hclose]
                  exact h
                · rw [if_neg hclose] at h
                  rw [if_neg hclose]
                  exact ihe _ _ h
      · -- parse_elems
        intro ts r h
        rw [hsucc]
        rw [Parser.parse_elems] at h
        rw [Parser.parse_elems]
        cases hp : Parser.parse f ts with
        | error e => rw [hp] at h; dsimp only at h; cases h
        | ok q =>
            obtain ⟨v, ts1⟩ := q
            rw [hp] at h
            dsimp only at h
            rw [ihp _ _ hp]
            dsimp only
            match ts1 with
            | [] => dsimp only at h; cases h
            | t :: rest =>
                dsimp only at h ⊢
                by_cases hcomma : t.token_type = TokenType.Comma
                · rw [if_pos hcomma] at h
                  rw [if_pos hcomma]
                  cases he : Parser.parse_elems f rest with
                  | error e => rw [he] at h; dsimp only at h; cases h
                  | ok q2 =>
                      obtain ⟨elems, rest2⟩ := q2
                      rw [he] at h
                      dsimp only at h
                      rw [ihe _ _ he]
                      dsimp only
                      exact h
                · rw [if_neg hcomma] at h
                  rw [if_neg hcomma]
                  exact h

/-! Appending extra tokens after the input changes nothing in a
successful parse except that the extra tokens are appended, unconsumed,
to the leftover: the parser never inspects tokens beyond those it
consumes or peeks at on its success path. -/

theorem consume_token_append {k : TokenType} {ts rest extra : List Token}
    (h : Parser.consume_token k ts = .ok rest) :
    Parser.consume_token k (ts ++ extra) = .ok (rest ++ extra) := by
  match ts with
  | [] => rw [Parser.consume_token] at h; cases h
  | t :: ts1 =>
      rw [Parser.consume_token] at h
      rw [List.cons_append, Parser.consume_token]
      by_cases htt : t.token_type = k
      · rw [if_pos htt] at h
        rw [if_pos htt]
        cases h
        rfl
      · rw [if_neg htt] at h
        cases h

theorem consume_string_append (extra : List Token) {ts : List Token} {key : List Char}
    {rest : List Token} (h : Parser.consume_string ts = .ok (key, rest)) :
    Parser.consume_string (ts ++ extra) = .ok (key, rest ++ extra) := by
  match ts with
  | [] => rw [Parser.consume_string] at h; cases h
  | t :: ts1 =>
      rw [Parser.consume_string] at h
      rw [List.cons_append, Parser.consume_string]
      by_cases htt : t.token_type = TokenType.String
      · rw [if_pos htt] at h
        rw [if_pos htt]
        cases h
        rfl
      · rw [if_neg htt] at h
        cases h

theorem parse_basic_append (extra : List Token) {ts : List Token} {v : ASTNode}
    {rest : List Token} (h : Parser.parse_basic ts = .ok (v, rest)) :
    Parser.parse_basic (ts ++ extra) = .ok (v, rest ++ extra) := by
  match ts with
  | [] => rw [Parser.parse_basic] at h; cases h
  | t :: ts1 =>
      rw [Parser.parse_basic] at h
      rw [List.cons_append, Parser.parse_basic]
      cases htt : t.token_type with
      | True => rw [htt] at h; dsimp only at h ⊢; cases h; rfl
      | False => rw [htt] at h; dsimp only at h ⊢; cases h; rfl
      | Null => rw [htt] at h; dsimp only at h ⊢; cases h; rfl
      | String => rw [htt] at h; dsimp only at h ⊢; cases h; rfl
      | Number =>
          rw [htt] at h
          dsimp only at h ⊢
          cases hf : parse_f64 t.value with
          | none => rw [hf] at h; dsimp only at h; cases h
          | some n =>
              rw [hf] at h
              dsimp only at h ⊢
              cases h
              rfl
      | OpenObject => rw [htt] at h; dsimp only at h; cases h
      | OpenArray => rw [htt] at h; dsimp only at h; cases h
      | CloseObject => rw [htt] at h; dsimp only at h; cases h
      | CloseArray => rw [htt] at h; dsimp only at h; cases h
      | Colon => rw [htt] at h; dsimp only at h; cases h
      | Comma => rw [htt] at h; dsimp only at h; cases h

theorem parse_nil (fuel : Nat) (r : ASTNode × List Token) :
    Parser.parse fuel [] ≠ .ok r := by
  match fuel with
  | 0 => rw [Parser.parse]; exact fun hcontra => by cases hcontra
  | f + 1 => rw [Parser.parse]; exact fun hcontra => by cases hcontra

theorem parse_elems_nil (fuel : Nat) (r : List ASTNode × List Token) :
    Parser.parse_elems fuel [] ≠ .ok r := by
  match fuel with
  | 0 => rw [Parser.parse_elems]; exact fun hcontra => by cases hcontra
  | f + 1 =>
      rw [Parser.parse_elems]
      cases hp : Parser.parse f [] with
      | error e => dsimp only; exact fun hcontra => by cases hcontra
      | ok q => exact absurd hp (parse_nil f q)

theorem parser_append :
    ∀ fuel : Nat, ∀ extra : List Token,
      (∀ ts v rest, Parser.parse fuel ts = .ok (v, rest) →
        Parser.parse fuel (ts ++ extra) = .ok (v, rest ++ extra)) ∧
      (∀ ts props rest, Parser.parse_object fuel ts = .ok (props, rest) →
        Parser.parse_object fuel (ts ++ extra) = .ok (props, rest ++ extra)) ∧
      (∀ ts props rest, Parser.parse_members fuel ts = .ok (props, rest) →
        Parser.parse_members fuel (ts ++ extra) = .ok (props, rest ++ extra)) ∧
      (∀ ts elems rest, Parser.parse_array fuel ts = .ok (elems, rest) →
        Parser.parse_array fuel (ts ++ extra) = .ok (elems, rest ++ extra)) ∧
      (∀ ts elems rest, Parser.parse_elems fuel ts = .ok (elems, rest) →
        Parser.parse_elems fuel (ts ++ extra) = .ok (elems, rest ++ extra)) := by
  intro fuel
  induction fuel with
  | zero =>
      intro extra
      refine ⟨?_, ?_, ?_, ?_, ?_⟩ <;> (intro ts a b h) <;>
        first
          | (rw [Parser.parse] at h; cases h)
          | (rw [Parser.parse_object] at h; cases h)
          | (rw [Parser.parse_members] at h; cases h)
          | (rw [Parser.parse_array] at h; cases h)
          | (rw [Parser.parse_elems] at h; cases h)
  | succ f ih =>
      intro extra
      have ihp := (ih extra).1
      have iho := (ih extra).2.1
      have ihm := (ih extra).2.2.1
      have iha := (ih extra).2.2.2.1
      have ihe := (ih extra).2.2.2.2
      refine ⟨?_, ?_, ?_, ?_, ?_⟩
      · -- parse
        intro ts v rest h
        match ts with
        | [] => rw [Parser.parse] at h; cases h
        | t :: ts1 =>
            rw [Parser.parse] at h
            rw [List.cons_append, Parser.parse]
            cases htt : t.token_type with
            | OpenObject =>
                rw [htt] at h
                dsimp only at h ⊢
                cases hO : Parser.parse_object f (t :: ts1) with
                | error e => rw [hO] at h; dsimp only at h; cases h
                | ok p =>
                    obtain ⟨props, rest0⟩ := p
                    rw [hO] at h
                    dsimp only at h
                    cases h
                    have hO2 := iho _ _ _ hO
                    rw [List.cons_append] at hO2
                    rw [hO2]
            | OpenArray =>
                rw [htt] at h
                dsimp only at h ⊢
                cases hA : Parser.parse_array f (t :: ts1) with
                | error e => rw [hA] at h; dsimp only at h; cases h
                | ok p =>
                    obtain ⟨elems, rest0⟩ := p
                    rw [hA] at h
                    dsimp only at h
                    cases h
                    have hA2 := iha _ _ _ hA
                    rw [List.cons_append] at hA2
                    rw [hA2]
            | CloseObject => rw [htt] at h; dsimp only at h; cases h
            | CloseArray => rw [htt] at h; dsimp only at h; cases h
            | Colon => rw [htt] at h; dsimp only at h; cases h
            | Comma => rw [htt] at h; dsimp only at h; cases h
            | True =>
                rw [htt] at h
                dsimp only at h ⊢
                have h2 := parse_basic_append extra h
                rw [List.cons_append] at h2
                exact h2
            | False =>
                rw [htt] at h
                dsimp only at h ⊢
                have h2 := parse_basic_append extra h
                rw [List.cons_append] at h2
                exact h2
            | Null =>
                rw [htt] at h
                dsimp only at h ⊢
                have h2 := parse_basic_append extra h
                rw [List.cons_append] at h2
                exact h2
            | Number =>
                rw [htt] at h
                dsimp only at h ⊢
                have h2 := parse_basic_append extra h
                rw [List.cons_append] at h2
                exact h2
            | String =>
                rw [htt] at h
                dsimp only at h ⊢
                have h2 := parse_basic_append extra h
                rw [List.cons_append] at h2
                exact h2
      · -- parse_object
        intro ts props rest h
        rw [Parser.parse_object] at h
        rw [Parser.parse_object]
        cases hc : Parser.consume_token TokenType.OpenObject ts with
        | error e => rw [hc] at h; dsimp only at h; cases h
        | ok l1 =>
            rw [hc] at h
            dsimp only at h
            rw [consume_token_append hc]
            dsimp only
            exact ihm _ _ _ h
      · -- parse_members
        intro ts props rest h
        match ts with
        | [] => rw [Parser.parse_members] at h; cases h
        | t :: ts1 =>
            rw [Parser.parse_members] at h
            rw [List.cons_append, Parser.parse_members]
            by_cases hclose : t.token_type = TokenType.CloseObject
            · rw [if_pos hclose] at h
              rw [if_pos hclose]
              cases h
              rfl
            · rw [if_neg hclose] at h
              rw [if_neg hclose]
              cases hcs : Parser.consume_string (t :: ts1) with
              | error e => rw [hcs] at h; dsimp only at h; cases h
              | ok p =>
                  obtain ⟨key, l1⟩ := p
                  rw [hcs] at h
                  dsimp only at h
                  have hcs2 := consume_string_append extra hcs
                  rw [List.cons_append] at hcs2
                  rw [hcs2]
                  dsimp only
                  cases hct : Parser.consume_token TokenType.Colon l1 with
                  | error e => rw [hct] at h; dsimp only at h; cases h
                  | ok l2 =>
                      rw [hct] at h
                      dsimp only at h
                      rw [consume_token_append hct]
                      dsimp only
                      cases hp : Parser.parse f l2 with
                      | error e => rw [hp] at h; dsimp only at h; cases h
                      | ok q =>
                          obtain ⟨v0, l3⟩ := q
                          rw [hp] at h
                          dsimp only at h
                          rw [ihp _ _ _ hp]
                          dsimp only
                          match l3 with
                          | [] => dsimp only at h; cases h
                          | t2 :: l4 =>
                              dsimp only at h
                              rw [List.cons_append]
                              dsimp only
                              by_cases hcomma : t2.token_type = TokenType.Comma
                              · rw [if_pos hcomma] at h
                                rw [if_pos hcomma]
                                cases hm : Parser.parse_members f l4 with
                                | error e => rw [hm] at h; dsimp only at h; cases h
                                | ok q2 =>
                                    obtain ⟨props2, l5⟩ := q2
                                    rw [hm] at h
                                    dsimp only at h
                                    cases h
                                    rw [ihm _ _ _ hm]
                              · rw [if_neg hcomma] at h
                                rw [if_neg hcomma]
                                by_cases hclose2 : t2.token_type = TokenType.CloseObject
                                · rw [if_pos hclose2] at h
                                  rw [if_pos hclose2]
                                  cases h
                                  rfl
                                · rw [if_neg hclose2] at h
                                  cases h
      · -- parse_array
        intro ts elems rest h
        rw [Parser.parse_array] at h
        rw [Parser.parse_array]
        cases hc : Parser.consume_token TokenType.OpenArray ts with
        | error e => rw [hc] at h; dsimp only at h; cases h
        | ok l1 =>
            rw [hc] at h
            dsimp only at h
            rw [consume_token_append hc]
            dsimp only
            match l1 with
            | [] => exact absurd h (parse_elems_nil f _)
            | t :: l2 =>
                dsimp only at h
                rw [List.cons_append]
                dsimp only
                by_cases hclose : t.token_type = TokenType.CloseArray
                · rw [if_pos hclose] at h
                  rw [if_pos hclose]
                  cases h
                  rfl
                · rw [if_neg hclose] at h
                  rw [if_neg hclose]
                  have h2 := ihe _ _ _ h
                  rw [List.cons_append] at h2
                  exact h2
      · -- parse_elems
        intro ts elems rest h
        rw [Parser.parse_elems] at h
        rw [Parser.parse_elems]
        cases hp : Parser.parse f ts with
        | error e => rw [hp] at h; dsimp only at h; cases h
        | ok q =>
            obtain ⟨v0, l1⟩ := q
            rw [hp] at h
            dsimp only at h
            rw [ihp _ _ _ hp]
            dsimp only
            match l1 with
            | [] => dsimp only at h; cases h
            | t :: l2 =>
                dsimp only at h
                rw [List.cons_append]
                dsimp only
                by_cases hcomma : t.token_type = TokenType.Comma
                · rw [if_pos hcomma] at h
                  rw [if_pos hcomma]
                  cases he : Parser.parse_elems f l2 with
                  | error e => rw [he] at h; dsimp only at h; cases h
                  | ok q2 =>
                      obtain ⟨elems2, l3⟩ := q2
                      rw [he] at h
                      dsimp only at h
                      cases h
                      rw [ihe _ _ _ he]
                · rw [if_neg hcomma] at h
                  rw [if_neg hcomma]
                  by_cases hclose : t.token_type = TokenType.CloseArray
                  · rw [if_pos hclose] at h
                    rw [if_pos hclose]
                    cases h
                    rfl
                  · rw [if_neg hclose] at h
                    cases h

/-! If every `Number` token in the input has a lexeme accepted by the
float parse, no parser function can produce the invalid-number error, and
the leftover token list keeps the property. -/

/-- Every `Number` token in the list carries a lexeme on which the float
parse succeeds. -/
def numTokensOk (ts : List Token) : Prop :=
  ∀ t ∈ ts, t.token_type = TokenType.Number → parse_f64 t.value ≠ none

/-- Combined postcondition: an error is not the invalid-number error, and
on success the unconsumed remainder still satisfies `numTokensOk`. -/
def resultOkNum {β : Type} (restOf : β → List Token) : Except String β → Prop
  | .error e => e ≠ "Invalid number"
  | .ok b => numTokensOk (restOf b)

theorem resultOkNum_error {β : Type} {restOf : β → List Token} {e : String}
    (h : e ≠ "Invalid number") : resultOkNum restOf (.error e) := h

theorem numTokensOk_tail {t : Token} {ts : List Token} (h : numTokensOk (t :: ts)) :
    numTokensOk ts :=
  fun x hx => h x (List.mem_cons_of_mem t hx)

theorem numTokensOk_nil : numTokensOk [] := fun x hx => absurd hx (List.not_mem_nil x)

theorem consume_token_num (k : TokenType) {ts : List Token} (hts : numTokensOk ts) :
    resultOkNum id (Parser.consume_token k ts) := by
  match ts with
  | [] => rw [Parser.consume_token]; exact resultOkNum_error (by decide)
  | t :: ts1 =>
      rw [Parser.consume_token]
      by_cases htt : t.token_type = k
      · rw [if_pos htt]
        exact numTokensOk_tail hts
      · rw [if_neg htt]
        cases k <;> exact resultOkNum_error (by decide)

theorem consume_string_num {ts : List Token} (hts : numTokensOk ts) :
    resultOkNum Prod.snd (Parser.consume_string ts) := by
  match ts with
  | [] => rw [Parser.consume_string]; exact resultOkNum_error (by decide)
  | t :: ts1 =>
      rw [Parser.consume_string]
      by_cases htt : t.token_type = TokenType.String
      · rw [if_pos htt]
        exact numTokensOk_tail hts
      · rw [if_neg htt]
        exact resultOkNum_error (by decide)

theorem parse_basic_num {ts : List Token} (hts : numTokensOk ts) :
    resultOkNum Prod.snd (Parser.parse_basic ts) := by
  match ts with
  | [] => rw [Parser.parse_basic]; exact resultOkNum_error (by decide)
  | t :: ts1 =>
      rw [Parser.parse_basic]
      cases htt : t.token_type with
      | True => exact numTokensOk_tail hts
      | False => exact numTokensOk_tail hts
      | Null => exact numTokensOk_tail hts
      | String => exact numTokensOk_tail hts
      | Number =>
          cases hf : parse_f64 t.value with
          | none => exact absurd hf (hts t (List.mem_cons_self t ts1) htt)
          | some n => exact numTokensOk_tail hts
      | OpenObject => exact resultOkNum_error (by decide)
      | OpenArray => exact resultOkNum_error (by decide)
      | CloseObject => exact resultOkNum_error (by decide)
      | CloseArray => exact resultOkNum_error (by decide)
      | Colon => exact resultOkNum_error (by decide)
      | Comma => exact resultOkNum_error (by decide)

theorem parser_num :
    ∀ fuel : Nat,
      (∀ ts, numTokensOk ts → resultOkNum Prod.snd (Parser.parse fuel ts)) ∧
      (∀ ts, numTokensOk ts → resultOkNum Prod.snd (Parser.parse_object fuel ts)) ∧
      (∀ ts, numTokensOk ts → resultOkNum Prod.snd (Parser.parse_members fuel ts)) ∧
      (∀ ts, numTokensOk ts → resultOkNum Prod.snd (Parser.parse_array fuel ts)) ∧
      (∀ ts, numTokensOk ts → resultOkNum Prod.snd (Parser.parse_elems fuel ts)) := by
  intro fuel
  induction fuel with
  | zero =>
      refine ⟨?_, ?_, ?_, ?_, ?_⟩ <;> (intro ts hts) <;>
        first
          | (rw [Parser.parse]; exact resultOkNum_error (by decide))
          | (rw [Parser.parse_object]; exact resultOkNum_error (by decide))
          | (rw [Parser.parse_members]; exact resultOkNum_error (by decide))
          | (rw [Parser.parse_array]; exact resultOkNum_error (by decide))
          | (rw [Parser.parse_elems]; exact resultOkNum_error (by decide))
  | succ f ih =>
      have ihp := ih.1
      have iho := ih.2.1
      have ihm := ih.2.2.1
      have iha := ih.2.2.2.1
      have ihe := ih.2.2.2.2
      refine ⟨?_, ?_, ?_, ?_, ?_⟩
      · -- parse
        intro ts hts
        match ts with
        | [] => rw [Parser.parse]; exact resultOkNum_error (by decide)
        | t :: rest =>
            rw [Parser.parse]
            cases htt : t.token_type with
            | OpenObject =>
                dsimp only
                have ho := iho (t :: rest) hts
                cases hO : Parser.parse_object f (t :: rest) with
                | error e => rw [hO] at ho; exact ho
                | ok p =>
                    obtain ⟨props, rest0⟩ := p
                    rw [hO] at ho
                    exact ho
            | OpenArray =>
                dsimp only
                have ha := iha (t :: rest) hts
                cases hA : Parser.parse_array f (t :: rest) with
                | error e => rw [hA] at ha; exact ha
                | ok p =>
                    obtain ⟨elems, rest0⟩ := p
                    rw [hA] at ha
                    exact ha
            | CloseObject => exact resultOkNum_error (by decide)
            | CloseArray => exact resultOkNum_error (by decide)
            | Colon => exact resultOkNum_error (by decide)
            | Comma => exact resultOkNum_error (by decide)
            | True => exact parse_basic_num hts
            | False => exact parse_basic_num hts
            | Null => exact parse_basic_num hts
            | Number => exact parse_basic_num hts
            | String => exact parse_basic_num hts
      · -- parse_object
        intro ts hts
        rw [Parser.parse_object]
        have hct := consume_token_num TokenType.OpenObject hts
        cases hc : Parser.consume_token TokenType.OpenObject ts with
        | error e => rw [hc] at hct; exact hct
        | ok l1 =>
            rw [hc] at hct
            exact ihm l1 hct
      · -- parse_members
        intro ts hts
        match ts with
        | [] => rw [Parser.parse_members]; exact resultOkNum_error (by decide)
        | t :: rest =>
            rw [Parser.parse_members]
            by_cases hclose : t.token_type = TokenType.CloseObject
            · rw [if_pos hclose]
              exact numTokensOk_tail hts
            · rw [if_neg hclose]
              have hcs0 := consume_string_num hts
              cases hcs : Parser.consume_string (t :: rest) with
              | error e => rw [hcs] at hcs0; exact hcs0
              | ok p =>
                  obtain ⟨key, l1⟩ := p
                  rw [hcs] at hcs0
                  dsimp only
                  have hct0 := consume_token_num TokenType.Colon hcs0
                  cases hct : Parser.consume_token TokenType.Colon l1 with
                  | error e => rw [hct] at hct0; exact hct0
                  | ok l2 =>
                      rw [hct] at hct0
                      dsimp only
                      have hp0 := ihp l2 hct0
                      cases hp : Parser.parse f l2 with
                      | error e => rw [hp] at hp0; exact hp0
                      | ok q =>
                          obtain ⟨v0, l3⟩ := q
                          rw [hp] at hp0
                          dsimp only
                          match l3 with
                          | [] => exact resultOkNum_error (by decide)
                          | t2 :: l4 =>
                              dsimp only
                              by_cases hcomma : t2.token_type = TokenType.Comma
                              · rw [if_pos hcomma]
                                have hm0 := ihm l4 (numTokensOk_tail hp0)
                                cases hm : Parser.parse_members f l4 with
                                | error e => rw [hm] at hm0; exact hm0
                                | ok q2 =>
                                    obtain ⟨props2, l5⟩ := q2
                                    rw [hm] at hm0
                                    exact hm0
                              · rw [if_neg hcomma]
                                by_cases hclose2 : t2.token_type = TokenType.CloseObject
                                · rw [if_pos hclose2]
                                  exact numTokensOk_tail hp0
                                · rw [if_neg hclose2]
                                  exact resultOkNum_error (by decide)
      · -- parse_array
        intro ts hts
        rw [Parser.parse_array]
        have hct := consume_token_num TokenType.OpenArray hts
        cases hc : Parser.consume_token TokenType.OpenArray ts with
        | error e => rw [hc] at hct; exact hct
        | ok l1 =>
            rw [hc] at hct
            dsimp only
            match l1 with
            | [] => exact ihe [] numTokensOk_nil
            | t :: l2 =>
                dsimp only
                by_cases hclose : t.token_type = TokenType.CloseArray
                · rw [if_pos hclose]
                  exact numTokensOk_tail hct
                · rw [if_neg hclose]
                  exact ihe (t :: l2) hct
      · -- parse_elems
        intro ts hts
        rw [Parser.parse_elems]
        have hp0 := ihp ts hts
        cases hp : Parser.parse f ts with
        | error e => rw [hp] at hp0; exact hp0
        | ok q =>
            obtain ⟨v0, l1⟩ := q
            rw [hp] at hp0
            dsimp only
            match l1 with
            | [] => exact resultOkNum_error (by decide)
            | t :: l2 =>
                dsimp only
                by_cases hcomma : t.token_type = TokenType.Comma
                · rw [if_pos hcomma]
                  have he0 := ihe l2 (numTokensOk_tail hp0)
                  cases he : Parser.parse_elems f l2 with
                  | error e => rw [he] at he0; exact he0
                  | ok q2 =>
                      obtain ⟨elems2, l3⟩ := q2
                      rw [he] at he0
                      exact he0
                · rw [if_neg hcomma]
                  by_cases hclose : t.token_type = TokenType.CloseArray
                  · rw [if_pos hclose]
                    exact numTokensOk_tail hp0
                  · rw [if_neg hclose]
                    exact resultOkNum_error (by decide)

/-! Small-step helpers and a rendering of object member lists into token
sequences, used to state the duplicate-key and trailing-comma claims over
arbitrary member lists. -/

theorem consume_token_cons_pos {k : TokenType} {t : Token} {rest : List Token}
    (h : t.token_type = k) : Parser.consume_token k (t :: rest) = .ok rest := by
  rw [Parser.consume_token, if_pos h]

theorem consume_string_cons {t : Token} {rest : List Token}
    (h : t.token_type = TokenType.String) :
    Parser.consume_string (t :: rest) = .ok (t.value, rest) := by
  rw [Parser.consume_string, if_pos h]

theorem consume_token_mk (k : TokenType) (val : List Char) (rest : List Token) :
    Parser.consume_token k (⟨k, val⟩ :: rest) = .ok rest := by
  rw [Parser.consume_token, if_pos rfl]

theorem consume_string_mk (val : List Char) (rest : List Token) :
    Parser.consume_string (⟨TokenType.String, val⟩ :: rest) = .ok (val, rest) := by
  rw [Parser.consume_string, if_pos rfl]

/-- The tree leaf a single token denotes, when it denotes one: the value
cases of `Parser::parse_basic`. -/
def leaf_ast (t : Token) : Option ASTNode :=
  match t.token_type with
  | .True => some ASTNode.True
  | .False => some ASTNode.False
  | .Null => some ASTNode.Null
  | .Number => (parse_f64 t.value).map ASTNode.Number
  | .String => some (ASTNode.String t.value)
  | _ => none

theorem parse_leaf {t : Token} {a : ASTNode} (g : Nat) (rest : List Token)
    (h : leaf_ast t = some a) :
    Parser.parse (g + 1) (t :: rest) = .ok (a, rest) := by
  rw [Parser.parse]
  rw [leaf_ast] at h
  cases htt : t.token_type with
  | True =>
      rw [htt] at h
      try dsimp only at h
      cases h
      try dsimp only
      rw [Parser.parse_basic, htt]
  | False =>
      rw [htt] at h
      try dsimp only at h
      cases h
      try dsimp only
      rw [Parser.parse_basic, htt]
  | Null =>
      rw [htt] at h
      try dsimp only at h
      cases h
      try dsimp only
      rw [Parser.parse_basic, htt]
  | String =>
      rw [htt] at h
      try dsimp only at h
      cases h
      try dsimp only
      rw [Parser.parse_basic, htt]
  | Number =>
      rw [htt] at h
      try dsimp only at h
      cases hf : parse_f64 t.value with
      | none => rw [hf] at h; simp at h
      | some n =>
          rw [hf] at h
          try dsimp only at h
          cases h
          try dsimp only
          rw [Parser.parse_basic, htt]
          dsimp only
          rw [hf]
  | OpenObject => rw [htt] at h; try dsimp only at h; cases h
  | OpenArray => rw [htt] at h; try dsimp only at h; cases h
  | CloseObject => rw [htt] at h; try dsimp only at h; cases h
  | CloseArray => rw [htt] at h; try dsimp only at h; cases h
  | Colon => rw [htt] at h; try dsimp only at h; cases h
  | Comma => rw [htt] at h; try dsimp only at h; cases h

/-- The three tokens of one object member whose value is a single (leaf)
token: string key, colon, value token. -/
def member_tokens (m : List Char × Token) : List Token :=
  [⟨TokenType.String, m.1⟩, ⟨TokenType.Colon, [ ':' ]⟩, m.2]

/-- Members joined by comma tokens, in document order. -/
def join_members : List (List Char × Token) → List Token
  | [] => []
  | [m] => member_tokens m
  | m :: m2 :: rest => member_tokens m ++ ⟨TokenType.Comma, [ ',' ]⟩ :: join_members (m2 :: rest)

/-- The full token sequence of an object literal with the given members. -/
def object_tokens (ms : List (List Char × Token)) : List Token :=
  ⟨TokenType.OpenObject, [ '{' ]⟩ :: (join_members ms ++ [⟨TokenType.CloseObject, [ '}' ]⟩])

theorem join_members_length (ms : List (List Char × Token)) :
    ms.length ≤ (join_members ms).length := by
  induction ms with
  | nil => simp [join_members]
  | cons m tail ih =>
      match tail with
      | [] => simp [join_members, member_tokens]
      | m2 :: rest =>
          rw [join_members]
          simp only [List.length_append, List.length_cons, member_tokens, List.length_cons]
          simp only [List.length_cons] at ih ⊢
          omega

/-- The member loop maps a rendered member list to exactly the listed
(key, value) pairs, in order, stopping at the closing brace. -/
theorem parse_members_render :
    ∀ ms : List (List Char × Token), ∀ fuel : Nat, ∀ rest : List Token,
      (∀ m ∈ ms, (leaf_ast m.2).isSome = true) → ms.length + 1 ≤ fuel →
      Parser.parse_members fuel
          (join_members ms ++ ⟨TokenType.CloseObject, [ '}' ]⟩ :: rest) =
        .ok (ms.map (fun m => (m.1, (leaf_ast m.2).getD ASTNode.Null)), rest) := by
  intro ms
  induction ms with
  | nil =>
      intro fuel rest hleaf hfuel
      match fuel, hfuel with
      | f + 1, _ =>
          rw [join_members, List.nil_append, Parser.parse_members]
          rw [if_pos rfl]
          rfl
  | cons m tail ih =>
      intro fuel rest hleaf hfuel
      simp only [List.length_cons] at hfuel
      obtain ⟨g, rfl⟩ : ∃ g, fuel = g + 1 + 1 := ⟨fuel - 2, by omega⟩
      have hm := hleaf m (List.mem_cons_self m tail)
      cases ha : leaf_ast m.2 with
      | none => rw [ha] at hm; cases hm
      | some a =>
          match tail with
          | [] =>
              rw [join_members]
              simp only [member_tokens, List.cons_append, List.nil_append]
              rw [Parser.parse_members]
              rw [consume_string_mk]
              dsimp only
              rw [consume_token_mk]
              dsimp only
              rw [parse_leaf g _ ha]
              dsimp only
              simp [ha]
          | m2 :: tail2 =>
              rw [join_members]
              simp only [member_tokens, List.cons_append, List.nil_append,
                List.append_assoc]
              rw [Parser.parse_members]
              rw [consume_string_mk]
              dsimp only
              rw [consume_token_mk]
              dsimp only
              rw [parse_leaf g _ ha]
              dsimp only
              have ihres := ih (g + 1) rest
                (fun x hx => hleaf x (List.mem_cons_of_mem m hx)) (by
                  simp only [List.length_cons] at hfuel ⊢
                  omega)
              rw [ihres]
              simp [ha]

/-! Character-class facts used when tracing which lexer branch runs. -/

theorem alpha_not_digit {c : Char} (h2 : c.isAlpha = true) : c.isDigit = false := by
  cases hd : c.isDigit with
  | false => rfl
  | true =>
      exfalso
      simp [Char.isDigit, Char.isAlpha, Char.isUpper, Char.isLower] at hd h2
      obtain ⟨a, b⟩ := hd
      have b2 : c.val.toNat ≤ 57 := b
      rcases h2 with ⟨d, e⟩ | ⟨d, e⟩
      · have d2 : 65 ≤ c.val.toNat := d
        omega
      · have d2 : 97 ≤ c.val.toNat := d
        omega

theorem digit_not_ws {c : Char} (hd : c.isDigit = true) :
    ¬(c = ' ' ∨ c = '\n' ∨ c = '\t' ∨ c = '\r') := by
  intro hcontra
  rcases hcontra with rfl | rfl | rfl | rfl <;> exact absurd hd (by decide)

theorem digit_not_simple {c : Char} (hd : c.isDigit = true) :
    ¬(c = '{' ∨ c = '}' ∨ c = '[' ∨ c = ']' ∨ c = ':' ∨ c = ',') := by
  intro hcontra
  rcases hcontra with rfl | rfl | rfl | rfl | rfl | rfl <;> exact absurd hd (by decide)

theorem digit_not_quote {c : Char} (hd : c.isDigit = true) : ¬(c = quoteChar) := by
  intro hcontra
  subst hcontra
  exact absurd hd (by decide)

theorem alpha_not_ws {c : Char} (ha : c.isAlpha = true) :
    ¬(c = ' ' ∨ c = '\n' ∨ c = '\t' ∨ c = '\r') := by
  intro hcontra
  rcases hcontra with rfl | rfl | rfl | rfl <;> exact absurd ha (by decide)

theorem alpha_not_simple {c : Char} (ha : c.isAlpha = true) :
    ¬(c = '{' ∨ c = '}' ∨ c = '[' ∨ c = ']' ∨ c = ':' ∨ c = ',') := by
  intro hcontra
  rcases hcontra with rfl | rfl | rfl | rfl | rfl | rfl <;> exact absurd ha (by decide)

theorem alpha_not_quote {c : Char} (ha : c.isAlpha = true) : ¬(c = quoteChar) := by
  intro hcontra
  subst hcontra
  exact absurd ha (by decide)

/-! Trailing-comma behaviour of the two loops. -/

/-- Inside an object, a comma right before the closing brace is accepted:
the comma is consumed, the loop re-checks the peeked token, sees the
closing brace and stops, and the member parsed before the comma is kept. -/
theorem parse_members_after_comma_close (fuel : Nat) (tk tc t1 t2 : Token)
    (ts2 rest : List Token) (v : ASTNode)
    (hk : tk.token_type = TokenType.String) (hc : tc.token_type = TokenType.Colon)
    (h1 : t1.token_type = TokenType.Comma) (h2 : t2.token_type = TokenType.CloseObject)
    (hp : Parser.parse (fuel + 1) ts2 = .ok (v, t1 :: t2 :: rest)) :
    Parser.parse_members (fuel + 3) (tk :: tc :: ts2) = .ok ([(tk.value, v)], rest) := by
  have hp2 : Parser.parse (fuel + 2) ts2 = .ok (v, t1 :: t2 :: rest) :=
    (parser_mono (fuel + 1) 1).1 ts2 _ hp
  rw [show fuel + 3 = (fuel + 2) + 1 from rfl, Parser.parse_members]
  rw [if_neg (show ¬(tk.token_type = TokenType.CloseObject) from by rw [hk]; decide)]
  rw [consume_string_cons hk]
  dsimp only
  rw [consume_token_cons_pos hc]
  dsimp only
  rw [hp2]
  dsimp only
  rw [if_pos h1]
  have hcl : Parser.parse_members (fuel + 2) (t2 :: rest) = .ok ([], rest) := by
    rw [show fuel + 2 = (fuel + 1) + 1 from rfl, Parser.parse_members, if_pos h2]
  rw [hcl]

/-- A close-bracket token in value position is rejected by the dispatch of
`Parser::parse`. -/
theorem parse_close_array_value_position (fuel : Nat) (t2 : Token) (rest : List Token)
    (h : t2.token_type = TokenType.CloseArray) :
    Parser.parse (fuel + 1) (t2 :: rest) = .error "Invalid JSON token" := by
  rw [Parser.parse, h]

/-- Inside an array, a comma right before the closing bracket is an error:
the loop consumes the comma and immediately tries to parse another value,
and the close bracket in value position is rejected. -/
theorem parse_elems_after_comma_close (fuel : Nat) (ts rest : List Token) (t1 t2 : Token)
    (v : ASTNode) (h1 : t1.token_type = TokenType.Comma)
    (h2 : t2.token_type = TokenType.CloseArray)
    (hp : Parser.parse (fuel + 1) ts = .ok (v, t1 :: t2 :: rest)) :
    Parser.parse_elems (fuel + 3) ts = .error "Invalid JSON token" := by
  have hp2 : Parser.parse (fuel + 2) ts = .ok (v, t1 :: t2 :: rest) :=
    (parser_mono (fuel + 1) 1).1 ts _ hp
  rw [show fuel + 3 = (fuel + 2) + 1 from rfl, Parser.parse_elems]
  rw [hp2]
  dsimp only
  rw [if_pos h1]
  have hinner : Parser.parse_elems (fuel + 2) (t2 :: rest) = .error "Invalid JSON token" := by
    rw [show fuel + 2 = (fuel + 1) + 1 from rfl, Parser.parse_elems]
    rw [parse_close_array_value_position fuel t2 rest h2]
  rw [hinner]

/-! The claims. -/

/-- C1 (amended): at an ASCII digit the tokenizer consumes the maximal run
of ASCII digits only — a decimal point is NOT part of the number lexeme —
and that digit run is the Number token text; consequently the input 1.5
does not produce a single Number token: tokenization fails at the dot with
an unexpected-character error. -/
theorem spec_c1 :
    (∀ c : Char, ∀ cs : List Char, c.isDigit = true →
      tokenize (c :: cs) = (tokenize (cs.dropWhile Char.isDigit)).map
        (fun ts => (⟨TokenType.Number, c :: cs.takeWhile Char.isDigit⟩ : Token) :: ts)) ∧
    tokenize [ '1', '.', '5' ] = .error "Unexpected character: ." := by
  refine ⟨?_, rfl⟩
  intro c cs hd
  rw [tokenize, Lexer.parse]
  rw [if_neg (digit_not_ws hd), if_neg (digit_not_simple hd), if_neg (digit_not_quote hd),
    if_pos hd]
  rw [Lexer.parse_number]
  dsimp only
  rw [List.takeWhile_cons_of_pos hd, List.dropWhile_cons_of_pos hd]
  have hlt : (cs.dropWhile Char.isDigit).length < (c :: cs).length := by
    have := dropWhile_length_le Char.isDigit cs
    simp only [List.length_cons]
    omega
  rw [lexer_parse_irrel ((c :: cs).length) ((cs.dropWhile Char.isDigit).length + 1)
    (cs.dropWhile Char.isDigit) hlt (Nat.lt_succ_self _)]
  rw [tokenize]
  cases hres : Lexer.parse ((cs.dropWhile Char.isDigit).length + 1)
      (cs.dropWhile Char.isDigit) with
  | ok ts => rfl
  | error e => rfl

/-- C1, the claim as stated is false: on the input 1.5 the tokenizer does
not produce a Number token with text 1.5; it stops the digit run at the
dot and fails with an unexpected-character error. -/
theorem spec_c1_cex :
    tokenize [ '1', '.', '5' ] = .error "Unexpected character: ." ∧
    ∀ ts : List Token, tokenize [ '1', '.', '5' ] ≠ .ok ts := by
  refine ⟨rfl, ?_⟩
  intro ts hcontra
  rw [show tokenize [ '1', '.', '5' ] = .error "Unexpected character: ." from rfl] at hcontra
  cases hcontra

theorem spec_c1_witness :
    tokenize [ '1', '2' ] = (tokenize ([ '2' ].dropWhile Char.isDigit)).map
      (fun ts => (⟨TokenType.Number, '1' :: [ '2' ].takeWhile Char.isDigit⟩ : Token) :: ts) :=
  spec_c1.1 '1' [ '2' ] rfl

/-- C2 (amended): inside an object a Comma token immediately followed by a
CloseObject token is accepted, not rejected: the member loop consumes the
comma, its guard sees the CloseObject and stops, the brace is consumed,
and build succeeds with the members parsed before the comma.  There is no
TrailingComma error. -/
theorem spec_c2 (fuel : Nat) (tk tc t1 t2 : Token) (ts2 rest : List Token) (v : ASTNode)
    (hk : tk.token_type = TokenType.String) (hc : tc.token_type = TokenType.Colon)
    (h1 : t1.token_type = TokenType.Comma) (h2 : t2.token_type = TokenType.CloseObject)
    (hp : Parser.parse (fuel + 1) ts2 = .ok (v, t1 :: t2 :: rest)) :
    Parser.parse_members (fuel + 3) (tk :: tc :: ts2) = .ok ([(tk.value, v)], rest) :=
  parse_members_after_comma_close fuel tk tc t1 t2 ts2 rest v hk hc h1 h2 hp

/-- C2, the claim as stated is false: on the tokens of an object with a
comma right before the closing brace, build does not fail with any error
(in particular not a trailing-comma error) — it succeeds and keeps the
member before the comma. -/
theorem spec_c2_cex :
    build [⟨TokenType.OpenObject, [ '{' ]⟩, ⟨TokenType.String, [ 'a' ]⟩,
        ⟨TokenType.Colon, [ ':' ]⟩, ⟨TokenType.Number, [ '1' ]⟩,
        ⟨TokenType.Comma, [ ',' ]⟩, ⟨TokenType.CloseObject, [ '}' ]⟩] =
      .ok (ASTNode.Object [([ 'a' ], ASTNode.Number 1)]) := rfl

theorem spec_c2_witness :
    Parser.parse_members 3
        [⟨TokenType.String, [ 'a' ]⟩, ⟨TokenType.Colon, [ ':' ]⟩,
          ⟨TokenType.Number, [ '1' ]⟩, ⟨TokenType.Comma, [ ',' ]⟩,
          ⟨TokenType.CloseObject, [ '}' ]⟩] =
      .ok ([([ 'a' ], ASTNode.Number 1)], []) :=
  spec_c2 0 ⟨TokenType.String, [ 'a' ]⟩ ⟨TokenType.Colon, [ ':' ]⟩
    ⟨TokenType.Comma, [ ',' ]⟩ ⟨TokenType.CloseObject, [ '}' ]⟩
    [⟨TokenType.Number, [ '1' ]⟩, ⟨TokenType.Comma, [ ',' ]⟩,
      ⟨TokenType.CloseObject, [ '}' ]⟩] [] (ASTNode.Number 1) rfl rfl rfl rfl rfl

/-- C3: a token sequence beginning with the tokens of one complete JSON
value builds to that value no matter what tokens follow: the parser is
applied once and neither requires nor rejects trailing tokens. -/
theorem spec_c3 (pre post : List Token) (v : ASTNode)
    (h : Parser.parse (3 * pre.length + 3) pre = .ok (v, [])) :
    build (pre ++ post) = .ok v := by
  have happ := (parser_append (3 * pre.length + 3) post).1 pre v [] h
  rw [List.nil_append] at happ
  have hm := (parser_mono (3 * pre.length + 3) (3 * post.length)).1 (pre ++ post) _ happ
  have hle : 3 * pre.length + 3 + 3 * post.length = 3 * (pre ++ post).length + 3 := by
    rw [List.length_append]
    omega
  rw [hle] at hm
  rw [build, hm]

theorem spec_c3_witness :
    build ([⟨TokenType.True, [ 't', 'r', 'u', 'e' ]⟩] ++ [⟨TokenType.Comma, [ ',' ]⟩]) =
      .ok ASTNode.True :=
  spec_c3 [⟨TokenType.True, [ 't', 'r', 'u', 'e' ]⟩] [⟨TokenType.Comma, [ ',' ]⟩]
    ASTNode.True rfl

/-- C4: build on the tokens of an object literal returns exactly the
listed (key, value) pairs, in document order — stated for every member
list whose values are leaf tokens, so in particular for member lists that
repeat a key: duplicates are preserved positionally, neither merged,
deduplicated, nor rejected. -/
theorem spec_c4 (ms : List (List Char × Token))
    (hleaf : ∀ m ∈ ms, (leaf_ast m.2).isSome = true) :
    build (object_tokens ms) =
      .ok (ASTNode.Object (ms.map fun m => (m.1, (leaf_ast m.2).getD ASTNode.Null))) := by
  have hlen : 3 * (object_tokens ms).length + 3
      = (3 * (join_members ms).length + 7) + 1 + 1 := by
    rw [object_tokens]
    simp only [List.length_cons, List.length_append, List.length_nil]
    omega
  rw [build, hlen, object_tokens, Parser.parse]
  dsimp only
  rw [Parser.parse_object]
  rw [consume_token_mk]
  dsimp only
  rw [parse_members_render ms (3 * (join_members ms).length + 7) [] hleaf
    (by have := join_members_length ms; omega)]

theorem spec_c4_witness :
    build (object_tokens [([ 'a' ], ⟨TokenType.Number, [ '1' ]⟩),
        ([ 'a' ], ⟨TokenType.True, [ 't', 'r', 'u', 'e' ]⟩)]) =
      .ok (ASTNode.Object ([([ 'a' ], ⟨TokenType.Number, [ '1' ]⟩),
        ([ 'a' ], ⟨TokenType.True, [ 't', 'r', 'u', 'e' ]⟩)].map
          fun m => (m.1, (leaf_ast m.2).getD ASTNode.Null))) :=
  spec_c4 [([ 'a' ], ⟨TokenType.Number, [ '1' ]⟩),
    ([ 'a' ], ⟨TokenType.True, [ 't', 'r', 'u', 'e' ]⟩)] (by decide)

/-- The example input of the spec test vector, as a character list. -/
def example_input : List Char :=
  String.toList "\x7b\x22a\x22: 1, \x22b\x22: [true, false, null]\x7d"

/-- The fifteen tokens the tokenizer produces for `example_input`. -/
def example_tokens : List Token :=
  [⟨TokenType.OpenObject, [ '{' ]⟩, ⟨TokenType.String, [ 'a' ]⟩,
   ⟨TokenType.Colon, [ ':' ]⟩, ⟨TokenType.Number, [ '1' ]⟩,
   ⟨TokenType.Comma, [ ',' ]⟩, ⟨TokenType.String, [ 'b' ]⟩,
   ⟨TokenType.Colon, [ ':' ]⟩, ⟨TokenType.OpenArray, [ '[' ]⟩,
   ⟨TokenType.True, [ 't', 'r', 'u', 'e' ]⟩, ⟨TokenType.Comma, [ ',' ]⟩,
   ⟨TokenType.False, [ 'f', 'a', 'l', 's', 'e' ]⟩, ⟨TokenType.Comma, [ ',' ]⟩,
   ⟨TokenType.Null, [ 'n', 'u', 'l', 'l' ]⟩, ⟨TokenType.CloseArray, [ ']' ]⟩,
   ⟨TokenType.CloseObject, [ '}' ]⟩]

/-- C5: the spec test vector: tokenizing the object-with-array example
yields exactly 15 tokens ending in CloseObject, and building them gives an
object with the two members (a, Number 1) and (b, Array [True, False,
Null]) in that order. -/
theorem spec_c5 :
    tokenize example_input = .ok example_tokens ∧
    example_tokens.length = 15 ∧
    example_tokens.getLast? = some ⟨TokenType.CloseObject, [ '}' ]⟩ ∧
    build example_tokens =
      .ok (ASTNode.Object
        [([ 'a' ], ASTNode.Number 1),
         ([ 'b' ], ASTNode.Array [ASTNode.True, ASTNode.False, ASTNode.Null])]) :=
  ⟨rfl, rfl, rfl, rfl⟩

/-- C6: tokenizing whitespace-only input (spaces, tabs, newlines, carriage
returns — including the empty input) succeeds with no tokens, and building
an empty token sequence fails with the unexpected-end-of-input error. -/
theorem spec_c6 :
    (∀ cs : List Char, (∀ c ∈ cs, c = ' ' ∨ c = '\n' ∨ c = '\t' ∨ c = '\r') →
      tokenize cs = .ok []) ∧
    build [] = .error "Unexpected end of input" := by
  refine ⟨?_, rfl⟩
  intro cs h
  rw [tokenize]
  exact lexer_parse_ws (cs.length + 1) cs (Nat.lt_succ_self _) h

theorem spec_c6_witness :
    tokenize [ ' ', '\t', '\r', '\n' ] = .ok [] :=
  spec_c6.1 [ ' ', '\t', '\r', '\n' ] (by decide)

/-- C7: at an ASCII letter the tokenizer consumes the maximal run of
alphabetic characters, and unless that word is exactly true, false or
null, tokenization fails with an unknown-keyword error carrying the word;
in particular the input with value `tru` fails with that word.  The
universal part is stated for all-ASCII inputs, on which
`Lexer.is_alphabetic` coincides with Rust `char::is_alphabetic` (see its
doc comment); beyond ASCII the extent of the keyword run depends on the
Unicode Alphabetic table, which this embedding does not model. -/
theorem spec_c7 :
    (∀ c : Char, ∀ cs : List Char, (∀ x ∈ c :: cs, x.toNat < 128) → c.isAlpha = true →
      (c :: cs).takeWhile Lexer.is_alphabetic ≠ [ 't', 'r', 'u', 'e' ] →
      (c :: cs).takeWhile Lexer.is_alphabetic ≠ [ 'f', 'a', 'l', 's', 'e' ] →
      (c :: cs).takeWhile Lexer.is_alphabetic ≠ [ 'n', 'u', 'l', 'l' ] →
      tokenize (c :: cs) =
        .error ("Unknown keyword: " ++ String.mk ((c :: cs).takeWhile Lexer.is_alphabetic))) ∧
    tokenize (String.toList "\x7b\x22a\x22: tru\x7d") = .error "Unknown keyword: tru" := by
  refine ⟨?_, rfl⟩
  intro c cs _hascii ha h1 h2 h3
  rw [tokenize, Lexer.parse]
  rw [if_neg (alpha_not_ws ha), if_neg (alpha_not_simple ha), if_neg (alpha_not_quote ha),
    if_neg (show ¬(c.isDigit = true) from by rw [alpha_not_digit ha]; decide), if_pos ha]
  have hpk : Lexer.parse_keyword (c :: cs) =
      .error ("Unknown keyword: " ++ String.mk ((c :: cs).takeWhile Lexer.is_alphabetic)) := by
    rw [Lexer.parse_keyword, if_neg h1, if_neg h2, if_neg h3]
  rw [hpk]

theorem spec_c7_witness :
    tokenize [ 't', 'r', 'u' ] =
      .error ("Unknown keyword: " ++ String.mk ([ 't', 'r', 'u' ].takeWhile Lexer.is_alphabetic)) :=
  spec_c7.1 't' [ 'r', 'u' ] (by decide) rfl (by decide) (by decide) (by decide)

/-- C8: every Number token a successful tokenize call produces carries a
nonempty run of ASCII digits, so the float parse in leaf parsing always
succeeds: build never returns the invalid-number error on
tokenizer-produced input. -/
theorem spec_c8 (cs : List Char) (toks : List Token) (h : tokenize cs = .ok toks) :
    (∀ t ∈ toks, t.token_type = TokenType.Number →
      t.value ≠ [] ∧ t.value.all Char.isDigit = true) ∧
    build toks ≠ .error "Invalid number" := by
  have hg := lexer_parse_good (cs.length + 1) cs toks h
  refine ⟨fun t ht htt => (hg t ht).1 htt, ?_⟩
  have hnum : numTokensOk toks := by
    intro t ht htt
    obtain ⟨hne, hall⟩ := (hg t ht).1 htt
    rw [parse_f64]
    have hie : t.value.isEmpty = false := by
      cases hv : t.value with
      | nil => exact absurd hv hne
      | cons a l => rfl
    rw [hie, hall]
    simp
  have hres := (parser_num (3 * toks.length + 3)).1 toks hnum
  rw [build]
  cases hp : Parser.parse (3 * toks.length + 3) toks with
  | error e =>
      rw [hp] at hres
      dsimp only
      intro hcontra
      exact hres (Except.error.inj hcontra)
  | ok q =>
      obtain ⟨v, rest⟩ := q
      dsimp only
      intro hcontra
      cases hcontra

theorem spec_c8_witness :
    (∀ t ∈ [(⟨TokenType.Number, [ '1' ]⟩ : Token)], t.token_type = TokenType.Number →
      t.value ≠ [] ∧ t.value.all Char.isDigit = true) ∧
    build [⟨TokenType.Number, [ '1' ]⟩] ≠ .error "Invalid number" :=
  spec_c8 [ '1' ] [⟨TokenType.Number, [ '1' ]⟩] rfl

/-- C9: no String token a successful tokenize call produces contains a
double-quote character in its text; consequently a backslash immediately
before a double quote does not keep that quote from ending the string
lexeme, as the concrete input quote-a-backslash-quote shows. -/
theorem spec_c9 :
    (∀ cs : List Char, ∀ toks : List Token, tokenize cs = .ok toks →
      ∀ t ∈ toks, t.token_type = TokenType.String → quoteChar ∉ t.value) ∧
    tokenize (String.toList "\x22a\x5c\x22") =
      .ok [⟨TokenType.String, [ 'a', Char.ofNat 92 ]⟩] := by
  refine ⟨?_, rfl⟩
  intro cs toks h t ht hs
  exact (lexer_parse_good (cs.length + 1) cs toks h t ht).2 hs

theorem spec_c9_witness :
    quoteChar ∉ [ 'a' ] :=
  spec_c9.1 (String.toList "\x22a\x22") [⟨TokenType.String, [ 'a' ]⟩] rfl
    ⟨TokenType.String, [ 'a' ]⟩ (by decide) rfl

/-- C10: inside an array a Comma token immediately followed by a
CloseArray token makes build fail: a CloseArray token in value position is
rejected by the dispatch of parse, the element loop runs into exactly that
after consuming the comma, and the tokens of the array one-comma-close
build to the invalid-JSON-token error. -/
theorem spec_c10 :
    (∀ fuel : Nat, ∀ t2 : Token, ∀ rest : List Token,
      t2.token_type = TokenType.CloseArray →
      Parser.parse (fuel + 1) (t2 :: rest) = .error "Invalid JSON token") ∧
    (∀ fuel : Nat, ∀ ts rest : List Token, ∀ t1 t2 : Token, ∀ v : ASTNode,
      t1.token_type = TokenType.Comma → t2.token_type = TokenType.CloseArray →
      Parser.parse (fuel + 1) ts = .ok (v, t1 :: t2 :: rest) →
      Parser.parse_elems (fuel + 3) ts = .error "Invalid JSON token") ∧
    build [⟨TokenType.OpenArray, [ '[' ]⟩, ⟨TokenType.Number, [ '1' ]⟩,
        ⟨TokenType.Comma, [ ',' ]⟩, ⟨TokenType.CloseArray, [ ']' ]⟩] =
      .error "Invalid JSON token" :=
  ⟨parse_close_array_value_position,
   fun fuel ts rest t1 t2 v h1 h2 hp =>
     parse_elems_after_comma_close fuel ts rest t1 t2 v h1 h2 hp,
   rfl⟩

theorem spec_c10_witness :
    Parser.parse_elems 3
        [⟨TokenType.Number, [ '1' ]⟩, ⟨TokenType.Comma, [ ',' ]⟩,
          ⟨TokenType.CloseArray, [ ']' ]⟩] =
      .error "Invalid JSON token" :=
  spec_c10.2.1 0
    [⟨TokenType.Number, [ '1' ]⟩, ⟨TokenType.Comma, [ ',' ]⟩,
      ⟨TokenType.CloseArray, [ ']' ]⟩] []
    ⟨TokenType.Comma, [ ',' ]⟩ ⟨TokenType.CloseArray, [ ']' ]⟩
    (ASTNode.Number 1) rfl rfl rfl
